import Mathlib

/-!
Verification of the place-discovery pipeline (BackendCusMan)

A shallow embedding, in Lean 4, of the core pure logic of `src/db.js`:

* string normalisation (`normStr`), spatial bucketing (`geoCell`),
  name similarity (`jaroWinkler`);
* the CSV snapshot codec (`csvEscape`, `placesToCsv`, `parseCsv`);
* the two-pass deduplicator (`dedupPlaces`);
* the retry/backoff wrapper (`httpGet`);
* the pure row-level logic of the count, preview and import endpoints,
  and the status/progress writes of the background search job.

Modelling conventions, used throughout:

* JavaScript numbers are modelled as rationals (`ℚ`).  The code never
  relies on float rounding for the properties proved here; the one
  trigonometric function (`haversineMeters`, db.js:58) is kept as an
  explicit function parameter `dist` of the deduplicator, since every
  theorem below holds for an arbitrary distance function.
* JavaScript strings are Lean `String`s; objects built by index loops
  (`obj[header[k]] = r[k]`) are association lists whose lookup takes the
  last binding, matching JS assignment-overwrite semantics.
* `String(number)` is modelled by `ratToStr`; the round-trip and
  counting theorems are insensitive to the concrete digit rendering.
-/

/- Definitions: the shallow embedding of the source. -/

/-- JS whitespace test used by `trim()` and `/\s+/` (restricted to the
ASCII whitespace actually reachable in this code base). -/
def jsIsSpace (c : Char) : Bool :=
  c = ' ' || c = '\t' || c = '\n' || c = '\r' || c = '\x0b' || c = '\x0c'

/-- `String.prototype.trim` on a character list. -/
def jsTrimL (l : List Char) : List Char :=
  ((l.dropWhile jsIsSpace).reverse.dropWhile jsIsSpace).reverse

/-- `String.prototype.trim`. -/
def jsTrimS (s : String) : String := (jsTrimL s.toList).asString

/-- Helper of `collapseWs`: the flag records whether the previous kept
character came from a whitespace run. -/
def collapseWsAux : Bool → List Char → List Char
  | _, [] => []
  | prev, c :: t =>
    if jsIsSpace c then
      if prev then collapseWsAux true t else ' ' :: collapseWsAux true t
    else c :: collapseWsAux false t

/-- `replace(/\s+/g, ' ')`: every maximal whitespace run becomes one space. -/
def collapseWs (l : List Char) : List Char := collapseWsAux false l

/-- `normStr` (db.js:56): trim, lower-case, collapse inner whitespace. -/
def normStr (s : String) : String :=
  (collapseWs ((jsTrimL s.toList).map Char.toLower)).asString

/-- Left pad of the fractional part of `toFixed3`. -/
def pad3 (n : Nat) : String :=
  if n < 10 then "00" ++ toString n
  else if n < 100 then "0" ++ toString n
  else toString n

/-- `Number.prototype.toFixed(3)` on a rational: round to the nearest
multiple of 1/1000, ties towards +∞ (the ECMA-262 rule "pick the larger n").
The rounded value `⌊q·1000 + 1/2⌋` is computed on the integer
representation of `q` (`⌊(2000·num + den) / (2·den)⌋`, the same integer),
so that the function evaluates by kernel reduction. -/
def toFixed3 (q : ℚ) : String :=
  let n : ℤ := Int.fdiv (2000 * q.num + (q.den : ℤ)) (2 * (q.den : ℤ))
  let sign : String := if n < 0 then "-" else ""
  let m : Nat := n.natAbs
  sign ++ toString (m / 1000) ++ "." ++ pad3 (m % 1000)

/-- `geoCell` (db.js:57): coarse ~100 m spatial bucket. -/
def geoCell (lat lng : ℚ) : String := toFixed3 lat ++ "," ++ toFixed3 lng

/-- `String(number)` stand-in on the rational model of JS numbers. -/
def ratToStr (q : ℚ) : String :=
  if q.den = 1 then toString q.num
  else toString q.num ++ "/" ++ toString q.den

/-- JS `x || ''` on an optional string (both `null` and `''` are falsy). -/
def optStr (o : Option String) : String := o.getD ""

/-- JS `s || null`: an empty string collapses to `null`. -/
def orNull (s : String) : Option String := if s = "" then none else some s

/-- A place record as produced by the provider adapter
(`googleSearchAndDetails`, db.js:137-175) and consumed by
`dedupPlaces`/`placesToCsv`.  `lat`/`lng` are `Option` because the code
checks `typeof p.lat !== 'number'`; `openingHours` is an opaque payload. -/
structure Place where
  name : String
  address : String
  phone : Option String
  website : Option String
  rating : Option ℚ
  reviewsCount : Option ℚ
  lat : Option ℚ
  lng : Option ℚ
  openingHours : Option String
  categories : List String
  placeIds : List (String × String)
  source : String
  sources : List String
deriving DecidableEq

/-- `address.split(',')` as a structurally recursive scan. -/
def splitCommaL : List Char → List Char → List String
  | [], acc => [acc.asString]
  | c :: t, acc =>
    if c = ',' then acc.asString :: splitCommaL t []
    else splitCommaL t (acc ++ [c])

/-- `guessCity` (db.js:493-498): second comma-separated component of the
address, trimmed, empty parts dropped. -/
def guessCity (address : String) : Option String :=
  if address = "" then none
  else
    match (splitCommaL address.toList []).map jsTrimS |>.filter (· ≠ "") with
    | _ :: c :: _ => some c
    | _ => none

/-! ## The CSV snapshot codec (db.js:179-248) -/
/-- Inner escaping of `csvEscape`: `replaceAll('"', '""')`. -/
def escInner : List Char → List Char
  | [] => []
  | c :: t => if c = '"' then '"' :: '"' :: escInner t else c :: escInner t

/-- `csvEscape` (db.js:179-182) on a character list: wrap in double
quotes, double the inner quotes. -/
def escField (v : List Char) : List Char := '"' :: (escInner v ++ ['"'])

/-- `csvEscape` (db.js:179-182). -/
def csvEscape (v : String) : String := (escField v.toList).asString

/-- `fields.join(',')`. -/
def joinComma : List (List Char) → List Char
  | [] => []
  | [f] => f
  | f :: rest => f ++ ',' :: joinComma rest

/-- `lines.join('\n')`. -/
def joinNl : List (List Char) → List Char
  | [] => []
  | [l] => l
  | l :: rest => l ++ '\n' :: joinNl rest

/-- The fixed header of `placesToCsv` (db.js:187). -/
def headerNames : List String :=
  ["id", "name", "site", "city", "category", "email_1", "email_2", "email_3",
   "phone_1", "phone_2", "phone_3", "latitude", "longitude", "assign",
   "contact_method", "data_start", "data_follow_up_1", "data_follow_up_2",
   "status", "note"]

/-- The header fields as character lists. -/
def headerFieldsL : List (List Char) := headerNames.map String.toList

/-- The header line `header.join(',')` of `placesToCsv`. -/
def headerLineL : List Char := joinComma headerFieldsL

/-- The city column value: `guessCity(p.address || '') || ''`. -/
def cityStr (p : Place) : String := (guessCity p.address).getD ""

/-- The category column value: first category if any, else `''`. -/
def catStr (p : Place) : String :=
  match p.categories with
  | [] => ""
  | c :: _ => c

/-- The latitude/longitude column value: `p.lat != null ? String(p.lat) : ''`. -/
def coordStr (o : Option ℚ) : String :=
  match o with
  | some q => ratToStr q
  | none => ""

/-- The 20 field values `placesToCsv` writes for one record (db.js:192-206),
in header order. -/
def rowValues (p : Place) : List String :=
  ["", p.name, optStr p.website, cityStr p, catStr p,
   "", "", "",
   optStr p.phone,
   "", "",
   coordStr p.lat, coordStr p.lng,
   "", "", "", "", "",
   "Non contattato",
   ""]

/-- One encoded data row: `row.map(csvEscape).join(',')`. -/
def rowLineL (p : Place) : List Char :=
  joinComma ((rowValues p).map (fun v => escField v.toList))

/-- `placesToCsv` (db.js:186-210) as a character list. -/
def placesToCsvL (places : List Place) : List Char :=
  joinNl (headerLineL :: places.map rowLineL)

/-- `placesToCsv` (db.js:186-210). -/
def placesToCsv (places : List Place) : String := (placesToCsvL places).asString

/-- The character-level state machine of `parseCsv` (db.js:212-248).
Arguments mirror the JS mutable state: remaining input, accumulated
`rows`, current row `cur`, current `field`, and the in-quotes flag `inQ`.
The final clause is the `if (field.length || cur.length)` flush. -/
def scanCsv : List Char → List (List (List Char)) → List (List Char) →
    List Char → Bool → List (List (List Char))
  | [], rows, cur, field, _ =>
    if field = [] ∧ cur = [] then rows else rows ++ [cur ++ [field]]
  | '"' :: '"' :: t, rows, cur, field, true => scanCsv t rows cur (field ++ ['"']) true
  | '"' :: t, rows, cur, field, true => scanCsv t rows cur field false
  | c :: t, rows, cur, field, true => scanCsv t rows cur (field ++ [c]) true
  | '"' :: t, rows, cur, field, false => scanCsv t rows cur field true
  | ',' :: t, rows, cur, field, false => scanCsv t rows (cur ++ [field]) [] false
  | '\r' :: '\n' :: t, rows, cur, field, false =>
    scanCsv t (rows ++ [cur ++ [field]]) [] [] false
  | '\n' :: t, rows, cur, field, false =>
    scanCsv t (rows ++ [cur ++ [field]]) [] [] false
  | '\r' :: t, rows, cur, field, false =>
    scanCsv t (rows ++ [cur ++ [field]]) [] [] false
  | c :: t, rows, cur, field, false => scanCsv t rows cur (field ++ [c]) false

/-- Header cleanup of `parseCsv`: `h.replace(/^﻿/, '').trim()`. -/
def cleanHeaderL (f : List Char) : List Char :=
  jsTrimL (match f with
    | c :: t => if c = '﻿' then t else c :: t
    | [] => [])

/-- `parseCsv` (db.js:212-248): rows become association lists keyed by the
header fields by position (`obj[header[k]] = r[k]` for `k` below both
lengths, which is exactly `hdr.zip row`). -/
def parseCsv (text : String) : List (List (String × String)) :=
  if text = "" then []
  else
    match scanCsv text.toList [] [] [] false with
    | [] => []
    | h :: rest =>
      let hdr := h.map (fun f => (cleanHeaderL f).asString)
      rest.map (fun r => hdr.zip (r.map List.asString))

/-- JS property read `obj[k]` on an association list built by repeated
assignment: the last binding wins, absent keys give `undefined` (`none`). -/
def jsGet : List (String × String) → String → Option String
  | [], _ => none
  | kv :: t, k =>
    match jsGet t k with
    | some w => some w
    | none => if kv.1 = k then some kv.2 else none

/-- JS `obj[k] || d` for a string default. -/
def jsGetD (r : List (String × String)) (k d : String) : String :=
  match jsGet r k with
  | some v => if v = "" then d else v
  | none => d

/-- A character that the unquoted scanner treats literally. -/
def plainChar (c : Char) : Prop := c ≠ '"' ∧ c ≠ ',' ∧ c ≠ '\n' ∧ c ≠ '\r'

instance (c : Char) : Decidable (plainChar c) := by
  unfold plainChar
  exact inferInstance

/-- The field values of a data row, as character lists. -/
def rowValsL (p : Place) : List (List Char) := (rowValues p).map String.toList

/-- The header row a given snapshot text is decoded against (first parsed
row of `parseCsv`, BOM-stripped and trimmed). -/
def csvHeader (text : String) : List String :=
  match scanCsv text.toList [] [] [] false with
  | [] => []
  | h :: _ => h.map (fun f => (cleanHeaderL f).asString)

/-! ## Import endpoint (db.js:501-537) -/
/-- One INSERT issued to the `clienti` registry, field order as in the SQL
statement `(name, city, category, site, phone_1, status)`. -/
structure InsertRow where
  name : String
  city : Option String
  category : Option String
  site : Option String
  phone1 : Option String
  status : String
deriving DecidableEq

/-- The registry row built from one decoded snapshot row (db.js:514-523). -/
def mkInsertRow (r : List (String × String)) : InsertRow :=
  { name := jsTrimS (jsGetD r "name" ""),
    city := orNull (jsGetD r "city" ""),
    category := orNull (jsGetD r "category" ""),
    site := orNull (jsGetD r "site" ""),
    phone1 := orNull (jsGetD r "phone_1" ""),
    status := "Non contattato" }

/-- The loop body of the import route: skip rows whose trimmed name is
empty, otherwise count the insert and record the issued row. -/
def importStep (acc : Nat × List InsertRow) (r : List (String × String)) :
    Nat × List InsertRow :=
  if jsTrimS (jsGetD r "name" "") = "" then acc
  else (acc.1 + 1, acc.2 ++ [mkInsertRow r])

/-- `POST /v1/jobs/:id/import` (db.js:501-537) as a pure function of the
stored snapshot: returns `(inserted, total, issued registry inserts)`. -/
def importJob (csv : String) : Nat × Nat × List InsertRow :=
  let arr := parseCsv csv
  let res := arr.foldl importStep (0, [])
  (res.1, arr.length, res.2)

/-- A decoded row survives the import filter iff its trimmed name is
non-empty. -/
def keepRow (r : List (String × String)) : Bool :=
  jsTrimS (jsGetD r "name" "") ≠ ""

/-- A neutral record used to build concrete test data. -/
def basePlace : Place :=
  { name := "", address := "", phone := none, website := none, rating := none,
    reviewsCount := none, lat := none, lng := none, openingHours := none,
    categories := [], placeIds := [], source := "google", sources := [] }

/-- Scenario D of the spec: a snapshot of five rows, one of which has an
empty name. -/
def scenarioPlaces : List Place :=
  [{ basePlace with name := "A" }, { basePlace with name := "B" },
   { basePlace with name := "" }, { basePlace with name := "D" },
   { basePlace with name := "E" }]

/-! ## Preview endpoint (db.js:464-491) -/
/-- Digits-to-number accumulator used by the `Number()` model. -/
def natFromDigits (l : List Char) : Nat :=
  l.foldl (fun acc c => acc * 10 + (c.toNat - 48)) 0

/-- `Number(s)` modelled on plain decimal literals (optional sign, digits,
optional fractional digits); anything else is NaN, represented as `none`.
The preview route only applies it to non-empty strings. -/
def jsNumber (s : String) : Option ℚ :=
  let l := jsTrimL s.toList
  let sgn : Bool × List Char :=
    match l with
    | '-' :: t => (true, t)
    | '+' :: t => (false, t)
    | _ => (false, l)
  let ip := sgn.2.takeWhile Char.isDigit
  let rest := sgn.2.dropWhile Char.isDigit
  let core : Option ℚ :=
    match rest with
    | [] => if ip = [] then none else some (natFromDigits ip : ℚ)
    | '.' :: frac =>
      if frac.all Char.isDigit ∧ ¬(ip = [] ∧ frac = []) then
        some ((natFromDigits ip : ℚ) +
          (natFromDigits frac : ℚ) / (10 : ℚ) ^ frac.length)
      else none
    | _ => none
  core.map (fun q => if sgn.1 then -q else q)

/-- One preview record as returned by `GET /v1/jobs/:id/places`
(db.js:475-485). -/
structure PreviewItem where
  name : String
  address : String
  phone : Option String
  website : Option String
  rating : Option ℚ
  reviewsCount : Option ℚ
  lat : Option ℚ
  lng : Option ℚ
  categories : List String
deriving DecidableEq

/-- The mapping from a decoded snapshot row to a preview record
(db.js:475-485): note `rating: null`, `reviewsCount: null`, and
`address: r['city']`. -/
def previewOfRow (r : List (String × String)) : PreviewItem :=
  { name := jsGetD r "name" "",
    address := jsGetD r "city" "",
    phone := orNull (jsGetD r "phone_1" ""),
    website := orNull (jsGetD r "site" ""),
    rating := none,
    reviewsCount := none,
    lat := if jsGetD r "latitude" "" = "" then none
      else jsNumber (jsGetD r "latitude" ""),
    lng := if jsGetD r "longitude" "" = "" then none
      else jsNumber (jsGetD r "longitude" ""),
    categories := if jsGetD r "category" "" = "" then []
      else [jsGetD r "category" ""] }

/-- `GET /v1/jobs/:id/places` (db.js:464-491) as a pure function of the
stored snapshot: decoded rows mapped to preview records, then
`slice(offset, offset + limit)`. -/
def previewPlaces (csv : String) (limit offset : Nat) : List PreviewItem :=
  ((((parseCsv csv).map previewOfRow).drop offset).take limit)

/-- A concrete record with a two-component address, for witnesses. -/
def milanoPlace : Place :=
  { basePlace with name := "N", address := "Via Roma 1, Milano, Italia" }

/-! ## Row-count endpoint (db.js:426-439) -/
/-- `csv.split(/\r?\n/)` as a character scan: `\r\n` and `\n` separate
lines, a bare `\r` is an ordinary character. -/
def splitRNL : List Char → List Char → List (List Char)
  | [], acc => [acc]
  | '\r' :: '\n' :: t, acc => acc :: splitRNL t []
  | '\n' :: t, acc => acc :: splitRNL t []
  | c :: t, acc => splitRNL t (acc ++ [c])

/-- `csv.split(/\r?\n/)`. -/
def splitRN (s : String) : List String := (splitRNL s.toList []).map List.asString

/-- `GET /v1/jobs/:id/count` (db.js:426-439) as a pure function of the
stored snapshot: non-blank physical lines, minus one for the header
(`Math.max(0, lines.length - 1)` is truncated subtraction on `Nat`). -/
def jobCount (csv : String) : Nat :=
  (((splitRN csv).filter (fun l => jsTrimS l ≠ "")).length) - 1

/-- A character list free of line-break characters. -/
def noNlCr (l : List Char) : Prop := ∀ c ∈ l, c ≠ '\n' ∧ c ≠ '\r'

instance (l : List Char) : Decidable (noNlCr l) := by
  unfold noNlCr
  exact inferInstance

/-- A record whose name contains a newline: its encoded (quoted) row spans
two physical lines. -/
def nlPlace : Place := { basePlace with name := "a\nb" }

/-! ## Name similarity: `jaroWinkler` (db.js:60) -/
/-- Inner loop of the match phase: first index `j` in the window that is
not yet matched and carries the sought character (`continue`/`break` of
the JS loop).  `left` is the number of window positions still to scan. -/
def jwFind (c : Char) (s2 : List Char) (m2 : List Bool) : Nat → Nat → Option Nat
  | _, 0 => none
  | j, left + 1 =>
    if m2.getD j false then jwFind c s2 m2 (j + 1) left
    else if s2.getD j (Char.ofNat 0) = c then some j
    else jwFind c s2 m2 (j + 1) left

/-- Outer loop of the match phase: returns the `s1Matches` flags (in
order), the final `s2Matches` flags and the match count.
`Math.max(0, i - mDist)` is `Int.toNat` of the difference. -/
def jwMatchLoop (s2 : List Char) (mDist : ℤ) : List Char → Nat → List Bool →
    List Bool × List Bool × Nat
  | [], _, m2 => ([], m2, 0)
  | c :: rest, i, m2 =>
    let start : Nat := ((i : ℤ) - mDist).toNat
    let stop : Nat := min (((i : ℤ) + mDist + 1).toNat) s2.length
    match jwFind c s2 m2 start (stop - start) with
    | some j =>
      let r := jwMatchLoop s2 mDist rest (i + 1) (m2.set j true)
      (true :: r.1, r.2.1, r.2.2 + 1)
    | none =>
      let r := jwMatchLoop s2 mDist rest (i + 1) m2
      (false :: r.1, r.2.1, r.2.2)

/-- `while (!s2Matches[k]) k++` with explicit fuel (the loop always stops
inside the list because match counts on both sides agree). -/
def jwSkip (m2 : List Bool) : Nat → Nat → Nat
  | k, 0 => k
  | k, left + 1 => if m2.getD k false then k else jwSkip m2 (k + 1) left

/-- Transposition loop: walks the matched positions of `s1` (the
`(char, matched)` pairs) against the matched positions of `s2`, counting
raw (un-halved) transpositions. -/
def jwTransLoop (s2 : List Char) (m2 : List Bool) :
    List (Char × Bool) → Nat → Nat → Nat
  | [], _, t2 => t2
  | cb :: rest, k, t2 =>
    if cb.2 then
      let k2 := jwSkip m2 k m2.length
      if s2.getD k2 (Char.ofNat 0) = cb.1 then jwTransLoop s2 m2 rest (k2 + 1) t2
      else jwTransLoop s2 m2 rest (k2 + 1) (t2 + 1)
    else jwTransLoop s2 m2 rest k t2

/-- The final Jaro-Winkler score from the integer statistics: lengths,
match count `m`, raw transposition count `t2` (halved here, as in
`t /= 2`), and prefix bonus length `lp`. -/
def jwScore (l1 l2 m t2 lp : Nat) : ℚ :=
  let t : ℚ := (t2 : ℚ) / 2
  let j : ℚ := ((m : ℚ) / (l1 : ℚ) + (m : ℚ) / (l2 : ℚ) + ((m : ℚ) - t) / (m : ℚ)) / 3
  j + 1 / 10 * (lp : ℚ) * (1 - j)

/-- `jaroWinkler` (db.js:60).  Note the prefix-bonus computation: the JS
code gives the length bonus only when `findIndex((c,i) => s2[i] !== c)`
is `-1`, i.e. when the whole of `s1` coincides character-wise with the
start of `s2`; otherwise the bonus is `0` (the found index is discarded). -/
def jaroWinkler (a b : String) : ℚ :=
  let s1 := (normStr a).toList
  let s2 := (normStr b).toList
  if s1 = [] ∨ s2 = [] then 0
  else
    let mDist : ℤ := ((max s1.length s2.length / 2 : Nat) : ℤ) - 1
    let r := jwMatchLoop s2 mDist s1 0 (List.replicate s2.length false)
    let m := r.2.2
    if m = 0 then 0
    else
      let t2 := jwTransLoop s2 r.2.1 (s1.zip r.1) 0 0
      let lp := min 4 (if s1.isPrefixOf s2 then min 4 (min s1.length s2.length) else 0)
      jwScore s1.length s2.length m t2 lp

/-! ## Retry/backoff: `httpGet` (db.js:125-135) -/
/-- Outcome of one underlying `axios.get` call: success, or a failure
with the HTTP status of the response (`0` for network errors, from
`e?.response?.status || 0`). -/
inductive HttpOutcome where
  | ok : HttpOutcome
  | err : Nat → HttpOutcome
deriving DecidableEq

/-- The retry condition of `httpGet`: `code === 429` or a 5xx status. -/
def retryableB (code : Nat) : Bool := code == 429 || (500 ≤ code && code < 600)

/-- `httpGet` (db.js:125-135) over an oracle `resp` giving the outcome of
each attempt (attempts are numbered from 1, as in the code).  Returns the
list of back-off waits performed (in ms, in order) and the final result.
The structural `fuel` argument starts at `4 = 5 - 1` and stays equal to
`5 - attempt`, so the `fuel = 0` fallback is unreachable: the guard
`attempt < 5` always fails first. -/
def httpGetGo (resp : Nat → HttpOutcome) : Nat → Nat → List Nat × Except Nat Unit
  | attempt, fuel =>
    match resp attempt with
    | .ok => ([], .ok ())
    | .err code =>
      if retryableB code && decide (attempt < 5) then
        match fuel with
        | 0 => ([], .error code)
        | fuel + 1 =>
          let r := httpGetGo resp (attempt + 1) fuel
          (min (2000 * attempt) 8000 :: r.1, r.2)
      else ([], .error code)

/-- `httpGet(url, opts)`: first attempt is attempt 1. -/
def httpGet (resp : Nat → HttpOutcome) : List Nat × Except Nat Unit :=
  httpGetGo resp 1 4

/-! ## Job lifecycle (db.js:335-410) -/
/-- One applied UPDATE to the job row, restricted to the `status` and
`progress` columns (the only ones the lifecycle claim is about). -/
structure JobWrite where
  status : Option String
  progress : Option Nat
deriving DecidableEq

/-- The sequence of `status`/`progress` writes applied to a job's row by
`POST /v1/search` and its background task (db.js:357-402), as a function
of which steps fail.  `ok1`/`ok2`/`ok3` say whether the three `upd` calls
(`running/progress 0`, `progress 100`, `completed/progress 100`) succeed;
`searchThrows` says whether the provider search throws; `okF` says whether
the catch-handler's `failed` write succeeds.  A failing write applies
nothing and control moves to the catch handler; the snapshot write
(db.js:376-378) touches neither column and its failure is swallowed. -/
def jobWrites (searchThrows ok1 ok2 ok3 okF : Bool) : List JobWrite :=
  let catchW : List JobWrite := if okF then [⟨some "failed", none⟩] else []
  if ok1 = false then catchW
  else
    ⟨some "running", some 0⟩ ::
      (if searchThrows then catchW
       else if ok2 = false then catchW
       else ⟨none, some 100⟩ ::
         (if ok3 = false then catchW
          else [⟨some "completed", some 100⟩]))

/-- The whole observable write trace of one job, starting from the
creation INSERT (`status 'queued', progress 0`, db.js:357). -/
def jobTrace (searchThrows ok1 ok2 ok3 okF : Bool) : List JobWrite :=
  ⟨some "queued", some 0⟩ :: jobWrites searchThrows ok1 ok2 ok3 okF

/-- The sequence of status values written over the job's lifetime. -/
def statusSeq (tr : List JobWrite) : List String := tr.filterMap (·.status)

/-- The sequence of progress values written over the job's lifetime. -/
def progressSeq (tr : List JobWrite) : List Nat := tr.filterMap (·.progress)

/-- A list of naturals is non-decreasing from left to right. -/
def nonDecreasingB : List Nat → Bool
  | [] => true
  | [_] => true
  | a :: b :: t => decide (a ≤ b) && nonDecreasingB (b :: t)

/-! ## Deduplication: `dedupPlaces` (db.js:250-286)

The only float-valued ingredient, `haversineMeters` (db.js:58, spherical
trigonometry), is kept as an explicit parameter `dist` of the second
pass; every theorem below holds for an arbitrary `dist` function. -/
/-- JS truthiness of a string (`''` is falsy). -/
def jsTruthyS (s : String) : Bool := !(s == "")

/-- The validity filter of `dedupPlaces` (db.js:254): records lacking a
name, an address or either coordinate are dropped. -/
def validPlace (p : Place) : Bool :=
  jsTruthyS p.name && jsTruthyS p.address && p.lat.isSome && p.lng.isSome

/-- The exact-match dedup key (db.js:255). -/
def keyOf (p : Place) : String :=
  normStr p.name ++ "|" ++ normStr p.address ++ "|" ++
    geoCell (p.lat.getD 0) (p.lng.getD 0)

/-- `[p.source].filter(Boolean)` (db.js:270). -/
def sourcesInit (s : String) : List String := if s = "" then [] else [s]

/-- The record pushed for a fresh key: `{...p, sources: [p.source].filter(Boolean)}`. -/
def initPlace (p : Place) : Place := { p with sources := sourcesInit p.source }

/-- `Array.from(new Set(xs))`: first occurrence kept, order preserved. -/
def dedupFirstAux : List String → List String → List String
  | _, [] => []
  | seen, x :: t =>
    if x ∈ seen then dedupFirstAux seen t
    else x :: dedupFirstAux (seen ++ [x]) t

/-- `Array.from(new Set(xs))`. -/
def dedupFirst (l : List String) : List String := dedupFirstAux [] l

/-- JS falsiness of a nullable string (`null` and `''`). -/
def jsFalsyO (o : Option String) : Bool :=
  match o with
  | none => true
  | some s => s == ""

/-- Key present in an object. -/
def containsKey (k : String) (l : List (String × String)) : Bool :=
  l.any (fun kv => kv.1 == k)

/-- Object spread `{...a, ...b}`: keys of `a` keep their position with
`b`'s value when overridden, new keys of `b` are appended. -/
def spreadMerge (a b : List (String × String)) : List (String × String) :=
  a.map (fun kv => (kv.1, (jsGet b kv.1).getD kv.2)) ++
    b.filter (fun kv => !(containsKey kv.1 a))

/-- `x.rating || 0`. -/
def ratingD (o : Option ℚ) : ℚ := o.getD 0

/-- The exact-pass merge (db.js:259-266): union sources (filtering falsy
entries), spread place ids, fill website/phone if missing, keep the
higher rating.  All other fields of `cur` are untouched. -/
def mergePlace1 (cur p : Place) : Place :=
  { cur with
    sources := dedupFirst ((cur.sources ++ [p.source]).filter (fun s => !(s == ""))),
    placeIds := spreadMerge cur.placeIds p.placeIds,
    website := if jsFalsyO cur.website && !(jsFalsyO p.website) then p.website
      else cur.website,
    phone := if jsFalsyO cur.phone && !(jsFalsyO p.phone) then p.phone
      else cur.phone,
    rating := if ratingD p.rating > ratingD cur.rating then p.rating
      else cur.rating }

/-- The fuzzy-pass merge (db.js:278-282): same policy, but the sources
union concatenates the two `sources` arrays without the falsy filter. -/
def mergePlace2 (dup p : Place) : Place :=
  { dup with
    sources := dedupFirst (dup.sources ++ p.sources),
    placeIds := spreadMerge dup.placeIds p.placeIds,
    website := if jsFalsyO dup.website && !(jsFalsyO p.website) then p.website
      else dup.website,
    phone := if jsFalsyO dup.phone && !(jsFalsyO p.phone) then p.phone
      else dup.phone,
    rating := if ratingD p.rating > ratingD dup.rating then p.rating
      else dup.rating }

/-- `byKey.get(key)`: JS Map lookup (keys are unique by construction). -/
def mapGet (l : List (String × Nat)) (k : String) : Option Nat :=
  match l with
  | [] => none
  | kv :: t => if kv.1 = k then some kv.2 else mapGet t k

/-- In-place update of `result[idx]`. -/
def listModify {α : Type} : List α → Nat → (α → α) → List α
  | [], _, _ => []
  | a :: t, 0, f => f a :: t
  | a :: t, n + 1, f => a :: listModify t n f

/-- One iteration of the exact pass (db.js:253-272), acting on the pair
`(byKey, result)`. -/
def pass1Step (st : List (String × Nat) × List Place) (p : Place) :
    List (String × Nat) × List Place :=
  if validPlace p then
    match mapGet st.1 (keyOf p) with
    | some i => (st.1, listModify st.2 i (fun cur => mergePlace1 cur p))
    | none => (st.1 ++ [(keyOf p, st.2.length)], st.2 ++ [initPlace p])
  else st

/-- The exact pass of `dedupPlaces`. -/
def pass1 (arr : List Place) : List Place :=
  (arr.foldl pass1Step ([], [])).2

/-- The fuzzy-pass test (db.js:276): within 50 m and name similarity at
least 0.88. -/
def nearPred (dist : ℚ → ℚ → ℚ → ℚ → ℚ) (p q : Place) : Bool :=
  decide (dist (p.lat.getD 0) (p.lng.getD 0) (q.lat.getD 0) (q.lng.getD 0) ≤ 50) &&
    decide (jaroWinkler p.name q.name ≥ 0.88)

/-- `final.find(...)` with its index: first accepted record matching the
predicate. -/
def findIdxA (pred : Place → Bool) : List Place → Nat → Option Nat
  | [], _ => none
  | q :: t, n => if pred q then some n else findIdxA pred t (n + 1)

/-- One iteration of the fuzzy pass (db.js:274-284): fold the record into
the first near-duplicate already accepted, else accept it. -/
def pass2Step (dist : ℚ → ℚ → ℚ → ℚ → ℚ) (final : List Place) (p : Place) :
    List Place :=
  match findIdxA (fun q => nearPred dist p q) final 0 with
  | some i => listModify final i (fun dup => mergePlace2 dup p)
  | none => final ++ [p]

/-- `dedupPlaces` (db.js:250-286): exact pass, then fuzzy pass. -/
def dedupPlaces (dist : ℚ → ℚ → ℚ → ℚ → ℚ) (arr : List Place) : List Place :=
  (pass1 arr).foldl (pass2Step dist) []

/-- Everything a merge leaves untouched: all fields except `sources`,
`placeIds`, `website`, `phone`, `rating`. -/
def mergeFrame (p : Place) :
    String × String × Option ℚ × Option ℚ × Option String × List String ×
      Option ℚ × String :=
  (p.name, p.address, p.lat, p.lng, p.openingHours, p.categories,
    p.reviewsCount, p.source)

/-- The `byKey` map that corresponds to a `result` array whose first
element sits at index `n`. -/
def keyIdx : List Place → Nat → List (String × Nat)
  | [], _ => []
  | p :: t, n => (keyOf p, n) :: keyIdx t (n + 1)

/-- A concrete record seen by two providers. -/
def cexA : Place :=
  { basePlace with
      name := "Caffe Uno"
      address := "Via Po 1, Torino"
      lat := some 45
      lng := some 7
      source := "google" }

/-- The same place reported by a second source. -/
def cexB : Place := { cexA with source := "other" }

/- Theorems. -/

/-! ## Round-trip of the codec -/
theorem toList_asString (l : List Char) : l.asString.toList = l := rfl

theorem asString_toList (s : String) : s.toList.asString = s := rfl

/-- Inside a quoted field, the escaped body is read back verbatim and the
closing quote leaves quoted mode (the character after the closing quote
must not itself be a quote). -/
theorem scanCsv_escInner (s : List Char) (rest : List Char)
    (rows : List (List (List Char))) (cur : List (List Char)) (field : List Char)
    (h : ∀ t1, rest ≠ '"' :: t1) :
    scanCsv (escInner s ++ '"' :: rest) rows cur field true =
      scanCsv rest rows cur (field ++ s) false := by
  induction s generalizing field with
  | nil =>
    show scanCsv ('"' :: rest) rows cur field true = _
    rw [scanCsv.eq_3 rows cur field rest (fun t1 ht => h t1 ht), List.append_nil]
  | cons c s ih =>
    by_cases hc : c = '"'
    · subst hc
      have he : escInner ('"' :: s) = '"' :: '"' :: escInner s := by simp [escInner]
      rw [he, List.cons_append, List.cons_append, scanCsv.eq_2, ih (field ++ ['"']),
        List.append_assoc]
      rfl
    · have he : escInner (c :: s) = c :: escInner s := by simp [escInner, hc]
      rw [he, List.cons_append,
        scanCsv.eq_4 rows cur field c _ (fun t1 hcq _ => hc hcq) (fun hcq => hc hcq),
        ih (field ++ [c]), List.append_assoc]
      rfl

/-- A whole escaped field is read back verbatim. -/
theorem scanCsv_escField (v : List Char) (rest : List Char)
    (rows : List (List (List Char))) (cur : List (List Char)) (field : List Char)
    (h : ∀ t1, rest ≠ '"' :: t1) :
    scanCsv (escField v ++ rest) rows cur field false =
      scanCsv rest rows cur (field ++ v) false := by
  show scanCsv ('"' :: ((escInner v ++ ['"']) ++ rest)) rows cur field false = _
  rw [scanCsv.eq_5, List.append_assoc]
  exact scanCsv_escInner v rest rows cur field h

/-- An encoded data row followed by a newline pushes exactly its list of
field values as one row. -/
theorem scanCsv_qrow (fs : List (List Char)) (rest : List Char)
    (rows : List (List (List Char))) (cur : List (List Char)) (hne : fs ≠ []) :
    scanCsv (joinComma (fs.map escField) ++ '\n' :: rest) rows cur [] false =
      scanCsv rest (rows ++ [cur ++ fs]) [] [] false := by
  induction fs generalizing cur with
  | nil => exact absurd rfl hne
  | cons f fs ih =>
    cases fs with
    | nil =>
      show scanCsv (escField f ++ '\n' :: rest) rows cur [] false = _
      rw [scanCsv_escField f _ rows cur [] (fun t1 ht => by simp at ht)]
      show scanCsv ('\n' :: rest) rows cur f false = _
      rw [scanCsv.eq_8]
    | cons f2 fs2 =>
      show scanCsv ((escField f ++ ',' :: joinComma ((f2 :: fs2).map escField))
        ++ '\n' :: rest) rows cur [] false = _
      rw [List.append_assoc,
        scanCsv_escField f _ rows cur [] (fun t1 ht => by simp at ht)]
      show scanCsv (',' :: (joinComma ((f2 :: fs2).map escField) ++ '\n' :: rest))
        rows cur f false = _
      rw [scanCsv.eq_6, ih (cur ++ [f]) (by simp), List.append_assoc]
      rfl

/-- An encoded data row at the end of the input is flushed as one row
(the row is non-degenerate, so the final flush fires). -/
theorem scanCsv_qrow_eof (fs : List (List Char))
    (rows : List (List (List Char))) (cur : List (List Char)) (hne : fs ≠ [])
    (hfl : ¬(cur = [] ∧ fs = [[]])) :
    scanCsv (joinComma (fs.map escField)) rows cur [] false =
      rows ++ [cur ++ fs] := by
  induction fs generalizing cur with
  | nil => exact absurd rfl hne
  | cons f fs ih =>
    cases fs with
    | nil =>
      have hsplit := scanCsv_escField f [] rows cur [] (fun t1 ht => by simp at ht)
      rw [List.append_nil] at hsplit
      show scanCsv (escField f) rows cur [] false = _
      rw [hsplit, scanCsv.eq_1]
      simp only [List.nil_append]
      by_cases hf : f = [] ∧ cur = []
      · exact absurd ⟨hf.2, by rw [hf.1]⟩ hfl
      · rw [if_neg hf]
    | cons f2 fs2 =>
      show scanCsv (escField f ++ ',' :: joinComma ((f2 :: fs2).map escField))
        rows cur [] false = _
      rw [scanCsv_escField f _ rows cur [] (fun t1 ht => by simp at ht)]
      show scanCsv (',' :: joinComma ((f2 :: fs2).map escField)) rows cur f false = _
      rw [scanCsv.eq_6,
        ih (cur ++ [f]) (by simp) (fun hcontra => absurd hcontra.1 (by simp)),
        List.append_assoc]
      rfl

/-- Plain text (no quote, comma or line break) is accumulated verbatim in
unquoted mode. -/
theorem scanCsv_plain (s : List Char) (rest : List Char)
    (rows : List (List (List Char))) (cur : List (List Char)) (field : List Char)
    (h : ∀ c ∈ s, plainChar c) :
    scanCsv (s ++ rest) rows cur field false =
      scanCsv rest rows cur (field ++ s) false := by
  induction s generalizing field with
  | nil => rw [List.append_nil]; rfl
  | cons c s ih =>
    obtain ⟨h1, h2, h3, h4⟩ := h c (by simp)
    show scanCsv (c :: (s ++ rest)) rows cur field false = _
    rw [scanCsv.eq_10 rows cur field c _ (fun hq => h1 hq) (fun hq => h2 hq)
      (fun t1 hr _ => h4 hr) (fun hq => h3 hq) (fun hq => h4 hq),
      ih (field ++ [c]) (fun d hd => h d (by simp [hd])), List.append_assoc]
    rfl

/-- A line of plain comma-separated fields followed by a newline pushes
exactly its list of fields as one row (this is how the fixed header line
of `placesToCsv` is decoded). -/
theorem scanCsv_plainRow (fs : List (List Char)) (rest : List Char)
    (rows : List (List (List Char))) (cur : List (List Char)) (hne : fs ≠ [])
    (h : ∀ f ∈ fs, ∀ c ∈ f, plainChar c) :
    scanCsv (joinComma fs ++ '\n' :: rest) rows cur [] false =
      scanCsv rest (rows ++ [cur ++ fs]) [] [] false := by
  induction fs generalizing cur with
  | nil => exact absurd rfl hne
  | cons f fs ih =>
    cases fs with
    | nil =>
      show scanCsv (f ++ '\n' :: rest) rows cur [] false = _
      rw [scanCsv_plain f _ rows cur [] (h f (by simp))]
      show scanCsv ('\n' :: rest) rows cur f false = _
      rw [scanCsv.eq_8]
    | cons f2 fs2 =>
      show scanCsv ((f ++ ',' :: joinComma (f2 :: fs2)) ++ '\n' :: rest)
        rows cur [] false = _
      rw [List.append_assoc, scanCsv_plain f _ rows cur [] (h f (by simp))]
      show scanCsv (',' :: (joinComma (f2 :: fs2) ++ '\n' :: rest)) rows cur f false = _
      rw [scanCsv.eq_6, ih (cur ++ [f]) (by simp)
        (fun g hg => h g (by simp [hg])), List.append_assoc]
      rfl

theorem rowLineL_eq (p : Place) :
    rowLineL p = joinComma ((rowValsL p).map escField) := by
  simp [rowLineL, rowValsL, List.map_map]
  rfl

/-- Scanning the encoded body (one line per place, `\n`-joined) pushes one
row of field values per place. -/
theorem scanCsv_body (places : List Place) (rows : List (List (List Char)))
    (hne : places ≠ []) :
    scanCsv (joinNl (places.map rowLineL)) rows [] [] false =
      rows ++ places.map rowValsL := by
  induction places generalizing rows with
  | nil => exact absurd rfl hne
  | cons p ps ih =>
    cases ps with
    | nil =>
      show scanCsv (rowLineL p) rows [] [] false = _
      rw [rowLineL_eq,
        scanCsv_qrow_eof (rowValsL p) rows [] (by simp [rowValsL, rowValues])
          (fun hcontra => by simp [rowValsL, rowValues] at hcontra)]
      rfl
    | cons p2 ps2 =>
      show scanCsv (rowLineL p ++ '\n' :: joinNl ((p2 :: ps2).map rowLineL))
        rows [] [] false = _
      rw [rowLineL_eq, scanCsv_qrow (rowValsL p) _ rows [] (by simp [rowValsL, rowValues]),
        ih (rows ++ [[] ++ rowValsL p]) (by simp)]
      simp

/-- Scanning the full encoded snapshot yields the header row followed by
one row of field values per place. -/
theorem scanCsv_placesToCsv (places : List Place) :
    scanCsv (placesToCsvL places) [] [] [] false =
      headerFieldsL :: places.map rowValsL := by
  cases places with
  | nil => decide
  | cons p ps =>
    show scanCsv (headerLineL ++ '\n' :: joinNl ((p :: ps).map rowLineL))
      [] [] [] false = _
    rw [show headerLineL = joinComma headerFieldsL from rfl,
      scanCsv_plainRow headerFieldsL _ [] [] (by decide) (by decide)]
    simp only [List.nil_append]
    rw [scanCsv_body (p :: ps) [headerFieldsL] (by simp)]
    rfl

theorem rowVals_asString (q : Place) :
    (rowValsL q).map List.asString = rowValues q := by
  rw [rowValsL, List.map_map,
    show List.asString ∘ String.toList = id from funext asString_toList, List.map_id]

/-- Core round-trip equation: decoding the encoded snapshot yields, row by
row, the association of each header column with the field value the
encoder wrote. -/
theorem parseCsv_placesToCsv_eq (places : List Place) :
    parseCsv (placesToCsv places) =
      places.map (fun p => headerNames.zip (rowValues p)) := by
  cases places with
  | nil => decide
  | cons p ps =>
    have hne : placesToCsv (p :: ps) ≠ "" := by
      intro h
      have h2 := congrArg String.toList h
      have hL : (placesToCsv (p :: ps)).toList =
          headerLineL ++ '\n' :: joinNl ((p :: ps).map rowLineL) := rfl
      rw [hL] at h2
      have h3 : headerLineL ≠ [] := by decide
      exact h3 (List.append_eq_nil.mp h2).1
    rw [parseCsv, if_neg hne]
    have hscan : (placesToCsv (p :: ps)).toList = placesToCsvL (p :: ps) := rfl
    rw [hscan, scanCsv_placesToCsv]
    show ((p :: ps).map rowValsL).map
      (fun r => (headerFieldsL.map (fun f => (cleanHeaderL f).asString)).zip
        (r.map List.asString)) = _
    rw [show headerFieldsL.map (fun f => (cleanHeaderL f).asString) = headerNames
      from by decide, List.map_map]
    refine List.map_congr_left (fun q _ => ?_)
    show headerNames.zip ((rowValsL q).map List.asString) = _
    rw [rowVals_asString]

/-- C1.  Round-trip law of the snapshot codec: for every sequence of place
records, `parseCsv (placesToCsv R)` is exactly the list of rows mapping
each header column to the (stringified) field value `placesToCsv` wrote
for the corresponding record, field for field. -/
theorem snapshot_roundtrip (places : List Place) :
    parseCsv (placesToCsv places) =
      places.map (fun p => headerNames.zip (rowValues p)) :=
  parseCsv_placesToCsv_eq places

/-- C8.  The decoder is total by construction (`parseCsv` is a Lean
function, defined by structural recursion, hence terminating on every
input string); every key of every returned row-mapping comes from the
header row, and the tricky inputs (empty text, unterminated quoted field,
bare carriage return, rows shorter than the header) all decode without
error. -/
theorem parseCsv_total_and_header_keys :
    (∀ text : String, ∀ r ∈ parseCsv text, ∀ kv ∈ r, kv.1 ∈ csvHeader text)
    ∧ parseCsv "" = []
    ∧ parseCsv "a,b\n\"unclosed" = [[("a", "unclosed")]]
    ∧ parseCsv "a,b\rx,y" = [[("a", "x"), ("b", "y")]]
    ∧ parseCsv "a,b\nx" = [[("a", "x")]] := by
  refine ⟨?_, by decide, by decide, by decide, by decide⟩
  intro text r hr kv hkv
  rw [parseCsv] at hr
  by_cases h0 : text = ""
  · rw [if_pos h0] at hr
    simp at hr
  · rw [if_neg h0] at hr
    rcases hs : scanCsv text.toList [] [] [] false with _ | ⟨h, rest⟩
    · rw [hs] at hr
      simp at hr
    · rw [hs] at hr
      simp only [List.mem_map] at hr
      obtain ⟨row, hrow, rfl⟩ := hr
      have hz := List.of_mem_zip hkv
      rw [csvHeader, hs]
      exact hz.1

/-- Concrete instance of the header-key property of `parseCsv`. -/
theorem parseCsv_header_keys_witness : ("a", "x").1 ∈ csvHeader "a,b\nx" :=
  parseCsv_total_and_header_keys.1 "a,b\nx" [("a", "x")] (by decide)
    ("a", "x") (by decide)

theorem importFold (arr : List (List (String × String)))
    (n : Nat) (calls : List InsertRow) :
    arr.foldl importStep (n, calls) =
      (n + (arr.filter keepRow).length,
        calls ++ (arr.filter keepRow).map mkInsertRow) := by
  induction arr generalizing n calls with
  | nil => simp
  | cons r t ih =>
    by_cases h : jsTrimS (jsGetD r "name" "") = ""
    · have hk : keepRow r = false := by simp [keepRow, h]
      simp only [List.foldl_cons, importStep, if_pos h, List.filter_cons, hk]
      rw [ih]
      simp
    · have hk : keepRow r = true := by simp [keepRow, h]
      simp only [List.foldl_cons, importStep, if_neg h, List.filter_cons, hk]
      rw [ih]
      simp [Nat.add_assoc, Nat.add_comm 1]

set_option maxRecDepth 100000 in
/-- C4.  The import operation skips exactly the decoded rows whose trimmed
name is empty: `inserted` counts the rows with a non-empty name, `total`
counts all decoded rows, and exactly `inserted` registry inserts are
issued; on the five-row snapshot with one empty name this gives
`{inserted: 4, total: 5}` and 4 insert calls. -/
theorem importJob_skips_unnamed :
    (∀ csv : String,
      (importJob csv).1 = ((parseCsv csv).filter keepRow).length
      ∧ (importJob csv).2.1 = (parseCsv csv).length
      ∧ (importJob csv).2.2.length = (importJob csv).1)
    ∧ (importJob (placesToCsv scenarioPlaces)).1 = 4
    ∧ (importJob (placesToCsv scenarioPlaces)).2.1 = 5
    ∧ (importJob (placesToCsv scenarioPlaces)).2.2.length = 4 := by
  refine ⟨?_, by decide, by decide, by decide⟩
  intro csv
  show ((parseCsv csv).foldl importStep (0, [])).1 = _
    ∧ _ ∧ ((parseCsv csv).foldl importStep (0, [])).2.length =
      ((parseCsv csv).foldl importStep (0, [])).1
  rw [importFold]
  exact ⟨by simp, rfl, by simp⟩

theorem jsGet_row_city (p : Place) :
    jsGet (headerNames.zip (rowValues p)) "city" = some (cityStr p) := rfl

theorem jsGet_row_name (p : Place) :
    jsGet (headerNames.zip (rowValues p)) "name" = some p.name := rfl

theorem jsGetD_row_city (p : Place) :
    jsGetD (headerNames.zip (rowValues p)) "city" "" = cityStr p := by
  rw [jsGetD, jsGet_row_city]
  by_cases h : cityStr p = ""
  · rw [h]
    simp
  · simp [h]

theorem jsGetD_row_name (p : Place) :
    jsGetD (headerNames.zip (rowValues p)) "name" "" = p.name := by
  rw [jsGetD, jsGet_row_name]
  by_cases h : p.name = ""
  · rw [h]
    simp
  · simp [h]

/-- C10.  Every record view produced by the preview operation has `rating`
and `reviewsCount` equal to `null`, and its `address` field is the
snapshot's `city` column (the guessed city of some input record), not the
full provider address. -/
theorem preview_rating_null_address_city (places : List Place)
    (limit offset : Nat) :
    ∀ it ∈ previewPlaces (placesToCsv places) limit offset,
      it.rating = none ∧ it.reviewsCount = none ∧
      ∃ p ∈ places, it.address = cityStr p ∧ it.name = p.name := by
  intro it hit
  rw [previewPlaces, parseCsv_placesToCsv_eq, List.map_map] at hit
  have hit2 := List.mem_of_mem_drop (List.mem_of_mem_take hit)
  simp only [List.mem_map, Function.comp] at hit2
  obtain ⟨p, hp, rfl⟩ := hit2
  refine ⟨rfl, rfl, p, hp, ?_, ?_⟩
  · show jsGetD (headerNames.zip (rowValues p)) "city" "" = cityStr p
    exact jsGetD_row_city p
  · show jsGetD (headerNames.zip (rowValues p)) "name" "" = p.name
    exact jsGetD_row_name p

set_option maxRecDepth 100000 in
/-- Concrete instance of the preview property. -/
theorem preview_rating_null_witness :
    ∃ it ∈ previewPlaces (placesToCsv [milanoPlace]) 20 0,
      it.rating = none ∧ it.reviewsCount = none := by
  refine ⟨previewOfRow (headerNames.zip (rowValues milanoPlace)), ?_, ?_⟩
  · decide
  · have h := preview_rating_null_address_city [milanoPlace] 20 0
      (previewOfRow (headerNames.zip (rowValues milanoPlace))) (by decide)
    exact ⟨h.1, h.2.1⟩

theorem splitRNL_plain (l rest acc : List Char) (h : noNlCr l) :
    splitRNL (l ++ rest) acc = splitRNL rest (acc ++ l) := by
  induction l generalizing acc with
  | nil => rw [List.nil_append, List.append_nil]
  | cons c t ih =>
    obtain ⟨h1, h2⟩ := h c (by simp)
    rw [List.cons_append,
      splitRNL.eq_4 acc c _ (fun t1 hr _ => h2 hr) (fun hn => h1 hn),
      ih _ (fun d hd => h d (by simp [hd])), List.append_assoc]
    rfl

theorem splitRNL_joinNl (l : List Char) (rest : List (List Char)) (acc : List Char)
    (h : ∀ x ∈ l :: rest, noNlCr x) :
    splitRNL (joinNl (l :: rest)) acc = (acc ++ l) :: rest := by
  induction rest generalizing l acc with
  | nil =>
    show splitRNL l acc = [acc ++ l]
    have := splitRNL_plain l [] acc (h l (by simp))
    rw [List.append_nil] at this
    rw [this]
    rfl
  | cons l2 rest2 ih =>
    show splitRNL (l ++ '\n' :: joinNl (l2 :: rest2)) acc = _
    rw [splitRNL_plain l _ acc (h l (by simp)), splitRNL.eq_3,
      ih l2 [] (fun x hx => h x (by simp at hx ⊢; tauto))]
    rw [List.nil_append]

theorem mem_escInner (c : Char) (v : List Char) (h : c ∈ escInner v) :
    c = '"' ∨ c ∈ v := by
  induction v with
  | nil => simp [escInner] at h
  | cons d t ih =>
    by_cases hd : d = '"'
    · rw [escInner, if_pos hd] at h
      rcases List.mem_cons.mp h with hc | h3
      · exact Or.inl hc
      · rcases List.mem_cons.mp h3 with hc | h4
        · exact Or.inl hc
        · rcases ih h4 with h5 | h5
          · exact Or.inl h5
          · exact Or.inr (List.mem_cons_of_mem d h5)
    · rw [escInner, if_neg hd] at h
      rcases List.mem_cons.mp h with hc | h3
      · exact Or.inr (hc ▸ List.mem_cons_self d t)
      · rcases ih h3 with h5 | h5
        · exact Or.inl h5
        · exact Or.inr (List.mem_cons_of_mem d h5)

theorem mem_escField (c : Char) (v : List Char) (h : c ∈ escField v) :
    c = '"' ∨ c ∈ v := by
  rw [escField] at h
  rcases List.mem_cons.mp h with hc | h2
  · exact Or.inl hc
  · rcases List.mem_append.mp h2 with h3 | h3
    · exact mem_escInner c v h3
    · exact Or.inl (by simpa using h3)

theorem mem_joinComma (c : Char) (fs : List (List Char)) (h : c ∈ joinComma fs) :
    c = ',' ∨ ∃ f ∈ fs, c ∈ f := by
  induction fs with
  | nil => simp [joinComma] at h
  | cons f rest ih =>
    cases rest with
    | nil => exact Or.inr ⟨f, by simp, by simpa [joinComma] using h⟩
    | cons f2 rest2 =>
      rw [show joinComma (f :: f2 :: rest2) = f ++ ',' :: joinComma (f2 :: rest2)
        from rfl] at h
      rcases List.mem_append.mp h with h2 | h2
      · exact Or.inr ⟨f, by simp, h2⟩
      · rcases List.mem_cons.mp h2 with h3 | h3
        · exact Or.inl h3
        · rcases ih h3 with h4 | ⟨g, hg, hcg⟩
          · exact Or.inl h4
          · exact Or.inr ⟨g, by simp [hg], hcg⟩

theorem rowLineL_noNlCr (p : Place) (h : ∀ v ∈ rowValues p, noNlCr v.toList) :
    noNlCr (rowLineL p) := by
  intro c hc
  rcases mem_joinComma c _ hc with h1 | ⟨f, hf, hcf⟩
  · rw [h1]
    exact ⟨by decide, by decide⟩
  · obtain ⟨v, hv, rfl⟩ := List.mem_map.mp hf
    rcases mem_escField c _ hcf with h2 | h2
    · rw [h2]
      exact ⟨by decide, by decide⟩
    · exact h v hv c h2

theorem jsTrimL_ne_nil (l : List Char) (c : Char) (hc : c ∈ l)
    (hns : jsIsSpace c = false) : jsTrimL l ≠ [] := by
  intro hcontra
  rw [jsTrimL, List.reverse_eq_nil_iff, List.dropWhile_eq_nil_iff] at hcontra
  have hall : ∀ x ∈ l.dropWhile jsIsSpace, jsIsSpace x := by
    intro x hx
    exact hcontra x (List.mem_reverse.mpr hx)
  have : jsIsSpace c = true := by
    rcases List.mem_append.mp
      ((List.takeWhile_append_dropWhile (p := jsIsSpace) (l := l)) ▸ hc) with h1 | h1
    · exact List.mem_takeWhile_imp h1
    · exact hall c h1
  rw [this] at hns
  simp at hns

theorem joinComma_cons_shape (f : List Char) (rest : List (List Char)) :
    ∃ z, joinComma (f :: rest) = f ++ z := by
  cases rest with
  | nil => exact ⟨[], by simp [joinComma]⟩
  | cons f2 rest2 => exact ⟨',' :: joinComma (f2 :: rest2), rfl⟩

theorem rowLine_trim_ne (p : Place) : jsTrimS (rowLineL p).asString ≠ "" := by
  have hquote : '"' ∈ rowLineL p := by
    rw [rowLineL, show (rowValues p).map (fun v => escField v.toList) =
      escField "".toList :: ((rowValues p).tail.map (fun v => escField v.toList))
      from rfl]
    obtain ⟨z, hz⟩ := joinComma_cons_shape (escField "".toList) _
    rw [hz]
    exact List.mem_append.mpr (Or.inl (by simp [escField]))
  intro hcontra
  have h2 : jsTrimL (rowLineL p) = [] := by
    have := congrArg String.toList hcontra
    rw [jsTrimS] at this
    exact this
  exact jsTrimL_ne_nil (rowLineL p) '"' hquote (by decide) h2

set_option maxRecDepth 100000 in
theorem splitRN_placesToCsv (places : List Place)
    (h : ∀ p ∈ places, ∀ v ∈ rowValues p, noNlCr v.toList) :
    splitRN (placesToCsv places) =
      headerLineL.asString :: places.map (fun p => (rowLineL p).asString) := by
  have hlines : ∀ x ∈ headerLineL :: places.map rowLineL, noNlCr x := by
    intro x hx
    rcases List.mem_cons.mp hx with rfl | hx2
    · decide
    · obtain ⟨p, hp, rfl⟩ := List.mem_map.mp hx2
      exact rowLineL_noNlCr p (h p hp)
  rw [splitRN, show (placesToCsv places).toList = placesToCsvL places from rfl,
    placesToCsvL, splitRNL_joinNl headerLineL (places.map rowLineL) [] hlines]
  simp [List.map_map]

/-- C5 (amended).  The count endpoint returns the number of non-blank
physical lines of the snapshot minus one; this equals the number of
decoded snapshot rows (header excluded) whenever no encoded field value
contains a line break, and is `0` when no snapshot is stored.  (The
as-stated claim fails when an encoded value contains a newline, see the
counterexample.) -/
theorem jobCount_rows_excluding_header (places : List Place)
    (h : ∀ p ∈ places, ∀ v ∈ rowValues p, noNlCr v.toList) :
    jobCount (placesToCsv places) = (parseCsv (placesToCsv places)).length
    ∧ (parseCsv (placesToCsv places)).length = places.length
    ∧ jobCount "" = 0 := by
  have hparse : (parseCsv (placesToCsv places)).length = places.length := by
    rw [parseCsv_placesToCsv_eq, List.length_map]
  refine ⟨?_, hparse, by decide⟩
  rw [jobCount, splitRN_placesToCsv places h, hparse]
  have hfilter : (headerLineL.asString ::
      places.map fun p => (rowLineL p).asString).filter
        (fun l => jsTrimS l ≠ "") =
      headerLineL.asString :: places.map fun p => (rowLineL p).asString := by
    rw [List.filter_eq_self]
    intro a ha
    rcases List.mem_cons.mp ha with rfl | ha2
    · decide
    · obtain ⟨p, hp, rfl⟩ := List.mem_map.mp ha2
      exact decide_eq_true (rowLine_trim_ne p)
  rw [hfilter]
  simp

/-- Concrete instance of the amended count property. -/
theorem jobCount_rows_witness :
    jobCount (placesToCsv [milanoPlace]) =
      (parseCsv (placesToCsv [milanoPlace])).length
    ∧ (parseCsv (placesToCsv [milanoPlace])).length = [milanoPlace].length
    ∧ jobCount "" = 0 :=
  jobCount_rows_excluding_header [milanoPlace] (by decide)

set_option maxRecDepth 100000 in
/-- Counterexample to C5 as stated: with a newline inside an encoded field
value, the count endpoint does not return the number of snapshot rows
excluding the header (it counts 2 for a one-row snapshot). -/
theorem jobCount_newline_cex :
    jobCount (placesToCsv [nlPlace]) ≠ (parseCsv (placesToCsv [nlPlace])).length
    ∧ jobCount (placesToCsv [nlPlace]) = 2
    ∧ (parseCsv (placesToCsv [nlPlace])).length = 1 := by
  refine ⟨by decide, by decide, by decide⟩

/-- C3 evaluation.  The name-similarity function is not symmetric: the
prefix bonus fires only when the first string is a character-wise prefix
of the second, so `jaroWinkler "ab" "abc" = 41/45` while
`jaroWinkler "abc" "ab" = 8/9`. -/
theorem jaroWinkler_asymmetric :
    jaroWinkler "ab" "abc" = 41 / 45 ∧ jaroWinkler "abc" "ab" = 8 / 9 ∧
    jaroWinkler "ab" "abc" ≠ jaroWinkler "abc" "ab" := by
  have e1 : jaroWinkler "ab" "abc" = jwScore 2 3 2 0 2 := rfl
  have e2 : jaroWinkler "abc" "ab" = jwScore 3 2 2 0 0 := rfl
  have v1 : jwScore 2 3 2 0 2 = 41 / 45 := by
    rw [jwScore]
    norm_num
  have v2 : jwScore 3 2 2 0 0 = 8 / 9 := by
    rw [jwScore]
    norm_num
  refine ⟨e1.trans v1, e2.trans v2, ?_⟩
  rw [e1, v1, e2, v2]
  norm_num

theorem cons_range_map {α : Type} (x : α) (l : List α) (f : Nat → α)
    (hx : x = f 0) (hl : l = (List.range l.length).map (fun i => f (i + 1))) :
    x :: l = (List.range (x :: l).length).map f := by
  rw [List.length_cons, List.range_succ_eq_map, List.map_cons, List.map_map, hx]
  congr 1

theorem httpGetGo_waits (resp : Nat → HttpOutcome) (fuel : Nat) :
    ∀ attempt, fuel = 5 - attempt →
      (httpGetGo resp attempt fuel).1 =
        (List.range (httpGetGo resp attempt fuel).1.length).map
          (fun i => min (2000 * (attempt + i)) 8000)
      ∧ (httpGetGo resp attempt fuel).1.length ≤ fuel := by
  induction fuel with
  | zero =>
    intro attempt hf
    rcases h : resp attempt with _ | code
    · simp [httpGetGo, h]
    · have h5 : ¬ attempt < 5 := by omega
      simp [httpGetGo, h, h5]
  | succ fuel ih =>
    intro attempt hf
    rcases h : resp attempt with _ | code
    · simp [httpGetGo, h]
    · by_cases hr : retryableB code = true
      · have h5 : attempt < 5 := by omega
        have hrec := ih (attempt + 1) (by omega)
        have hcond : (retryableB code && decide (attempt < 5)) = true := by
          rw [hr]
          simp [h5]
        have hstep : httpGetGo resp attempt (fuel + 1) =
            (min (2000 * attempt) 8000 :: (httpGetGo resp (attempt + 1) fuel).1,
              (httpGetGo resp (attempt + 1) fuel).2) := by
          rw [httpGetGo, h]
          simp [hcond]
        rw [hstep]
        refine ⟨?_, by simpa using Nat.succ_le_succ hrec.2⟩
        apply cons_range_map
        · rw [Nat.add_zero]
        · rw [hrec.1]
          simp only [List.length_map, List.length_range]
          apply List.map_congr_left
          intro i hi
          show min (2000 * (attempt + 1 + i)) 8000 = min (2000 * (attempt + (i + 1))) 8000
          congr 2
          omega
      · simp only [Bool.not_eq_true] at hr
        simp [httpGetGo, h, hr]

/-- C6 (amended).  `httpGet` makes at most 5 total attempts; the wait
before attempt `n` (the `i`-th recorded wait, `n = i + 2`) is
`min(2000·(n−1), 8000)` — i.e. `min(2000·attempt, 8000)` for the attempt
that just failed — and a first failure that is neither 429 nor 5xx
propagates immediately with no wait. -/
theorem httpGet_retry_policy (resp : Nat → HttpOutcome) :
    (httpGet resp).1 =
      (List.range (httpGet resp).1.length).map (fun i => min (2000 * (i + 1)) 8000)
    ∧ (httpGet resp).1.length + 1 ≤ 5
    ∧ (∀ code, resp 1 = HttpOutcome.err code → retryableB code = false →
        httpGet resp = ([], Except.error code)) := by
  have h := httpGetGo_waits resp 4 1 (by omega)
  refine ⟨?_, ?_, ?_⟩
  · show (httpGetGo resp 1 4).1 = (List.range (httpGetGo resp 1 4).1.length).map
      (fun i => min (2000 * (i + 1)) 8000)
    rw [h.1]
    simp only [List.length_map, List.length_range]
    apply List.map_congr_left
    intro i hi
    show min (2000 * (1 + i)) 8000 = min (2000 * (i + 1)) 8000
    congr 2
    omega
  · show (httpGetGo resp 1 4).1.length + 1 ≤ 5
    have := h.2
    omega
  · intro code h1 h2
    show httpGetGo resp 1 4 = _
    rw [httpGetGo, h1]
    simp [h2]

/-- Concrete instance of the no-retry-on-client-error branch. -/
theorem httpGet_retry_policy_witness :
    httpGet (fun _ => HttpOutcome.err 404) = ([], Except.error 404) :=
  (httpGet_retry_policy (fun _ => HttpOutcome.err 404)).2.2 404 rfl rfl

/-- Counterexample to C6 as stated: on persistent 500s the recorded waits
are 2000, 4000, 6000, 8000 ms, so the wait before attempt 2 is 2000 ms,
not `min(2000·2, 8000) = 4000` ms as the claim's formula requires. -/
theorem httpGet_wait_formula_cex :
    (httpGet (fun _ => HttpOutcome.err 500)).1 = [2000, 4000, 6000, 8000]
    ∧ (httpGet (fun _ => HttpOutcome.err 500)).1.getD 0 0 ≠ min (2000 * 2) 8000 := by
  exact ⟨by decide, by decide⟩

/-- C7.  Whatever fails, the statuses written over a job's lifetime form a
subsequence of `queued, running, completed` or of `queued, running,
failed` (in particular no transition out of a terminal state), and the
progress values never decrease. -/
theorem job_lifecycle (searchThrows ok1 ok2 ok3 okF : Bool) :
    (List.Sublist (statusSeq (jobTrace searchThrows ok1 ok2 ok3 okF))
        ["queued", "running", "completed"]
      ∨ List.Sublist (statusSeq (jobTrace searchThrows ok1 ok2 ok3 okF))
        ["queued", "running", "failed"])
    ∧ nonDecreasingB (progressSeq (jobTrace searchThrows ok1 ok2 ok3 okF)) = true := by
  rcases searchThrows with _ | _ <;> rcases ok1 with _ | _ <;>
    rcases ok2 with _ | _ <;> rcases ok3 with _ | _ <;> rcases okF with _ | _ <;>
    refine ⟨?_, ?_⟩ <;> decide

theorem mergeFrame_mergePlace1 (cur p : Place) :
    mergeFrame (mergePlace1 cur p) = mergeFrame cur := rfl

theorem mergeFrame_mergePlace2 (dup p : Place) :
    mergeFrame (mergePlace2 dup p) = mergeFrame dup := rfl

theorem mergeFrame_initPlace (p : Place) :
    mergeFrame (initPlace p) = mergeFrame p := rfl

theorem mergeFrame_fields {a b : Place} (h : mergeFrame a = mergeFrame b) :
    a.name = b.name ∧ a.address = b.address ∧ a.lat = b.lat ∧ a.lng = b.lng ∧
    a.openingHours = b.openingHours ∧ a.categories = b.categories ∧
    a.reviewsCount = b.reviewsCount ∧ a.source = b.source := by
  rw [mergeFrame, mergeFrame, Prod.mk.injEq, Prod.mk.injEq, Prod.mk.injEq,
    Prod.mk.injEq, Prod.mk.injEq, Prod.mk.injEq, Prod.mk.injEq] at h
  exact ⟨h.1, h.2.1, h.2.2.1, h.2.2.2.1, h.2.2.2.2.1, h.2.2.2.2.2.1,
    h.2.2.2.2.2.2.1, h.2.2.2.2.2.2.2⟩

theorem keyOf_congr {a b : Place} (h : mergeFrame a = mergeFrame b) :
    keyOf a = keyOf b := by
  obtain ⟨h1, h2, h3, h4, -⟩ := mergeFrame_fields h
  rw [keyOf, keyOf, h1, h2, h3, h4]

theorem validPlace_congr {a b : Place} (h : mergeFrame a = mergeFrame b) :
    validPlace a = validPlace b := by
  obtain ⟨h1, h2, h3, h4, -⟩ := mergeFrame_fields h
  rw [validPlace, validPlace, h1, h2, h3, h4]

theorem nearPred_congr (dist : ℚ → ℚ → ℚ → ℚ → ℚ) {p p2 q q2 : Place}
    (hp : mergeFrame p = mergeFrame p2) (hq : mergeFrame q = mergeFrame q2) :
    nearPred dist p q = nearPred dist p2 q2 := by
  obtain ⟨hp1, -, hp3, hp4, -⟩ := mergeFrame_fields hp
  obtain ⟨hq1, -, hq3, hq4, -⟩ := mergeFrame_fields hq
  rw [nearPred, nearPred, hp1, hp3, hp4, hq1, hq3, hq4]

theorem mem_listModify {α : Type} (l : List α) (i : Nat) (f : α → α) :
    ∀ r ∈ listModify l i f, r ∈ l ∨ ∃ x ∈ l, r = f x := by
  induction l generalizing i with
  | nil => intro r hr; simp [listModify] at hr
  | cons a t ih =>
    intro r hr
    cases i with
    | zero =>
      rcases List.mem_cons.mp hr with h | h
      · exact Or.inr ⟨a, by simp, h⟩
      · exact Or.inl (List.mem_cons_of_mem a h)
    | succ n =>
      rcases List.mem_cons.mp hr with h | h
      · exact Or.inl (h ▸ List.mem_cons_self a t)
      · rcases ih n r h with h2 | ⟨x, hx, hfx⟩
        · exact Or.inl (List.mem_cons_of_mem a h2)
        · exact Or.inr ⟨x, List.mem_cons_of_mem a hx, hfx⟩

theorem map_listModify_eq {α β : Type} (g : α → β) (l : List α) (i : Nat)
    (f : α → α) (h : ∀ x, g (f x) = g x) :
    (listModify l i f).map g = l.map g := by
  induction l generalizing i with
  | nil => rfl
  | cons a t ih =>
    cases i with
    | zero => simp [listModify, h a]
    | succ n => simp [listModify, ih n]

theorem pairwise_listModify {α : Type} (R : α → α → Prop) (l : List α) (i : Nat)
    (f : α → α) (hl : ∀ a b, R a b → R a (f b)) (hr : ∀ a b, R a b → R (f a) b)
    (h : List.Pairwise R l) : List.Pairwise R (listModify l i f) := by
  induction l generalizing i with
  | nil => exact h
  | cons a t ih =>
    rcases List.pairwise_cons.mp h with ⟨ha, ht⟩
    cases i with
    | zero =>
      exact List.pairwise_cons.mpr ⟨fun b hb => hr a b (ha b hb), ht⟩
    | succ n =>
      refine List.pairwise_cons.mpr ⟨?_, ih n ht⟩
      intro b hb
      rcases mem_listModify t n f b hb with h2 | ⟨x, hx, rfl⟩
      · exact ha b h2
      · exact hl a x (ha x hx)

theorem forall_mem_listModify {α : Type} (Q : α → Prop) (l : List α) (i : Nat)
    (f : α → α) (hQ : ∀ x, Q x → Q (f x)) (h : ∀ x ∈ l, Q x) :
    ∀ r ∈ listModify l i f, Q r := by
  intro r hr
  rcases mem_listModify l i f r hr with h2 | ⟨x, hx, rfl⟩
  · exact h r h2
  · exact hQ x (h x hx)

theorem findIdxA_none_iff (pred : Place → Bool) (l : List Place) (n : Nat) :
    findIdxA pred l n = none ↔ ∀ q ∈ l, pred q = false := by
  induction l generalizing n with
  | nil => simp [findIdxA]
  | cons q t ih =>
    by_cases h : pred q = true
    · simp [findIdxA, h]
    · simp only [Bool.not_eq_true] at h
      simp [findIdxA, h, ih]

theorem keyIdx_append (l : List Place) (q : Place) (n : Nat) :
    keyIdx (l ++ [q]) n = keyIdx l n ++ [(keyOf q, n + l.length)] := by
  induction l generalizing n with
  | nil => simp [keyIdx]
  | cons p t ih =>
    rw [List.cons_append, keyIdx, keyIdx, ih (n + 1), List.cons_append]
    have h : n + 1 + t.length = n + (t.length + 1) := by omega
    rw [h]
    rfl

theorem keyIdx_modify (l : List Place) (i : Nat) (f : Place → Place) (n : Nat)
    (hf : ∀ x, keyOf (f x) = keyOf x) :
    keyIdx (listModify l i f) n = keyIdx l n := by
  induction l generalizing i n with
  | nil => rfl
  | cons a t ih =>
    cases i with
    | zero => rw [listModify, keyIdx, keyIdx, hf a]
    | succ m => rw [listModify, keyIdx, keyIdx, ih m]

theorem mapGet_keyIdx_none (l : List Place) (n : Nat) (k : String) :
    mapGet (keyIdx l n) k = none ↔ k ∉ l.map keyOf := by
  induction l generalizing n with
  | nil => simp [keyIdx, mapGet]
  | cons p t ih =>
    by_cases h : keyOf p = k
    · simp [keyIdx, mapGet, h]
    · simp only [keyIdx, mapGet, if_neg h, List.map_cons, List.mem_cons]
      rw [ih (n + 1)]
      constructor
      · intro h2 h3
        rcases h3 with h3 | h3
        · exact h (h3.symm)
        · exact h2 h3
      · intro h2 h3
        exact h2 (Or.inr h3)

theorem pass1_fold_props (P0 : List Place) (l : List Place)
    (hl : ∀ p ∈ l, p ∈ P0) :
    ∀ st : List (String × Nat) × List Place,
      st.1 = keyIdx st.2 0 →
      (st.2.map keyOf).Nodup →
      (∀ r ∈ st.2, validPlace r = true) →
      (∀ r ∈ st.2, ∃ p0 ∈ P0, mergeFrame r = mergeFrame p0) →
      (l.foldl pass1Step st).1 = keyIdx (l.foldl pass1Step st).2 0
      ∧ ((l.foldl pass1Step st).2.map keyOf).Nodup
      ∧ (∀ r ∈ (l.foldl pass1Step st).2, validPlace r = true)
      ∧ (∀ r ∈ (l.foldl pass1Step st).2, ∃ p0 ∈ P0, mergeFrame r = mergeFrame p0) := by
  induction l with
  | nil => intro st h1 h2 h3 h4; exact ⟨h1, h2, h3, h4⟩
  | cons p t ih =>
    intro st h1 h2 h3 h4
    have hp0 : p ∈ P0 := hl p (by simp)
    have hlt : ∀ x ∈ t, x ∈ P0 := fun x hx => hl x (by simp [hx])
    rw [List.foldl_cons]
    by_cases hv : validPlace p = true
    · rcases hm : mapGet st.1 (keyOf p) with _ | i
      · -- fresh key: append
        have hstep : pass1Step st p =
            (st.1 ++ [(keyOf p, st.2.length)], st.2 ++ [initPlace p]) := by
          rw [pass1Step, if_pos hv, hm]
        rw [hstep]
        have hnotin : keyOf p ∉ st.2.map keyOf := by
          rw [← mapGet_keyIdx_none st.2 0 (keyOf p), ← h1]
          exact hm
        refine ih hlt _ ?_ ?_ ?_ ?_
        · rw [keyIdx_append, ← h1, keyOf_congr (mergeFrame_initPlace p)]
          simp
        · rw [List.map_append, List.map_singleton,
            keyOf_congr (mergeFrame_initPlace p)]
          simp [List.nodup_append, h2, hnotin]
        · intro r hr
          rcases List.mem_append.mp hr with h5 | h5
          · exact h3 r h5
          · rw [List.mem_singleton.mp h5, validPlace_congr (mergeFrame_initPlace p)]
            exact hv
        · intro r hr
          rcases List.mem_append.mp hr with h5 | h5
          · exact h4 r h5
          · exact ⟨p, hp0, (List.mem_singleton.mp h5) ▸ mergeFrame_initPlace p⟩
      · -- existing key: merge in place
        have hstep : pass1Step st p =
            (st.1, listModify st.2 i (fun cur => mergePlace1 cur p)) := by
          rw [pass1Step, if_pos hv, hm]
        rw [hstep]
        refine ih hlt _ ?_ ?_ ?_ ?_
        · rw [h1, keyIdx_modify]
          exact fun x => keyOf_congr (mergeFrame_mergePlace1 x p)
        · rw [map_listModify_eq keyOf st.2 i _
            (fun x => keyOf_congr (mergeFrame_mergePlace1 x p))]
          exact h2
        · exact forall_mem_listModify _ st.2 i _
            (fun x hx => (validPlace_congr (mergeFrame_mergePlace1 x p)).trans hx) h3
        · exact forall_mem_listModify _ st.2 i _
            (fun x ⟨p0, hp0m, hfr⟩ =>
              ⟨p0, hp0m, (mergeFrame_mergePlace1 x p).trans hfr⟩) h4
    · simp only [Bool.not_eq_true] at hv
      have hstep : pass1Step st p = st := by
        rw [pass1Step, hv]
        rfl
      rw [hstep]
      exact ih hlt st h1 h2 h3 h4

theorem pass1_fold_fresh (l : List Place) :
    ∀ st : List (String × Nat) × List Place,
      st.1 = keyIdx st.2 0 →
      (∀ p ∈ l, validPlace p = true) →
      ((st.2 ++ l).map keyOf).Nodup →
      l.foldl pass1Step st = (keyIdx (st.2 ++ l.map initPlace) 0,
        st.2 ++ l.map initPlace) := by
  induction l with
  | nil =>
    intro st h1 _ _
    rw [List.foldl_nil, List.map_nil, List.append_nil, ← h1]
  | cons p t ih =>
    intro st h1 hv hnd
    have hfresh : keyOf p ∉ st.2.map keyOf := by
      intro hmem
      rw [List.map_append, List.nodup_append] at hnd
      exact hnd.2.2 hmem (by simp)
    have hm : mapGet st.1 (keyOf p) = none := by
      rw [h1, mapGet_keyIdx_none]
      exact hfresh
    have hstep : pass1Step st p =
        (st.1 ++ [(keyOf p, st.2.length)], st.2 ++ [initPlace p]) := by
      rw [pass1Step, if_pos (hv p (by simp)), hm]
    rw [List.foldl_cons, hstep]
    have hrec := ih (st.1 ++ [(keyOf p, st.2.length)], st.2 ++ [initPlace p])
      (by rw [keyIdx_append, keyOf_congr (mergeFrame_initPlace p), ← h1]
          simp)
      (fun x hx => hv x (by simp [hx]))
      (by rw [List.append_assoc, List.singleton_append, List.map_append,
            List.map_cons, keyOf_congr (mergeFrame_initPlace p)]
          rw [List.map_append, List.map_cons] at hnd
          exact hnd)
    rw [hrec]
    rw [List.append_assoc, List.singleton_append, List.map_cons]

theorem pass2_fold_pairwise (dist : ℚ → ℚ → ℚ → ℚ → ℚ) (l : List Place) :
    ∀ acc, List.Pairwise (fun q p => nearPred dist p q = false) acc →
      List.Pairwise (fun q p => nearPred dist p q = false)
        (l.foldl (pass2Step dist) acc) := by
  induction l with
  | nil => intro acc h; exact h
  | cons p t ih =>
    intro acc h
    rw [List.foldl_cons]
    rcases hf : findIdxA (fun q => nearPred dist p q) acc 0 with _ | i
    · have hstep : pass2Step dist acc p = acc ++ [p] := by
        rw [pass2Step, hf]
      rw [hstep]
      refine ih _ (List.pairwise_append.mpr ⟨h, List.pairwise_singleton _ p, ?_⟩)
      intro q hq x hx
      rw [List.mem_singleton.mp hx]
      exact (findIdxA_none_iff _ acc 0).mp hf q hq
    · have hstep : pass2Step dist acc p =
          listModify acc i (fun dup => mergePlace2 dup p) := by
        rw [pass2Step, hf]
      rw [hstep]
      refine ih _ (pairwise_listModify _ acc i _ ?_ ?_ h)
      · intro a b hab
        show nearPred dist (mergePlace2 b p) a = false
        rw [nearPred_congr dist (mergeFrame_mergePlace2 b p) rfl]
        exact hab
      · intro a b hab
        show nearPred dist b (mergePlace2 a p) = false
        rw [nearPred_congr dist rfl (mergeFrame_mergePlace2 a p)]
        exact hab

theorem pass2_fold_keys (dist : ℚ → ℚ → ℚ → ℚ → ℚ) (l : List Place) :
    ∀ acc, List.Sublist ((l.foldl (pass2Step dist) acc).map keyOf)
      (acc.map keyOf ++ l.map keyOf) := by
  induction l with
  | nil => intro acc; simp
  | cons p t ih =>
    intro acc
    rw [List.foldl_cons, List.map_cons]
    rcases hf : findIdxA (fun q => nearPred dist p q) acc 0 with _ | i
    · have hstep : pass2Step dist acc p = acc ++ [p] := by
        rw [pass2Step, hf]
      rw [hstep]
      have := ih (acc ++ [p])
      rw [List.map_append, List.map_singleton, List.append_assoc,
        List.singleton_append] at this
      exact this
    · have hstep : pass2Step dist acc p =
          listModify acc i (fun dup => mergePlace2 dup p) := by
        rw [pass2Step, hf]
      rw [hstep]
      have := ih (listModify acc i (fun dup => mergePlace2 dup p))
      rw [map_listModify_eq keyOf acc i _
        (fun x => keyOf_congr (mergeFrame_mergePlace2 x p))] at this
      refine this.trans ?_
      refine List.Sublist.append_left ?_ _
      exact List.sublist_cons_self (keyOf p) (t.map keyOf)

theorem pass2_fold_mem (dist : ℚ → ℚ → ℚ → ℚ → ℚ) (Q : Place → Prop)
    (hQ : ∀ a p, Q a → Q (mergePlace2 a p)) (l : List Place) :
    ∀ acc, (∀ r ∈ acc, Q r) → (∀ p ∈ l, Q p) →
      ∀ r ∈ l.foldl (pass2Step dist) acc, Q r := by
  induction l with
  | nil => intro acc ha _; exact ha
  | cons p t ih =>
    intro acc ha hp
    rw [List.foldl_cons]
    rcases hf : findIdxA (fun q => nearPred dist p q) acc 0 with _ | i
    · have hstep : pass2Step dist acc p = acc ++ [p] := by
        rw [pass2Step, hf]
      rw [hstep]
      refine ih _ ?_ (fun x hx => hp x (by simp [hx]))
      intro r hr
      rcases List.mem_append.mp hr with h2 | h2
      · exact ha r h2
      · exact (List.mem_singleton.mp h2) ▸ hp p (by simp)
    · have hstep : pass2Step dist acc p =
          listModify acc i (fun dup => mergePlace2 dup p) := by
        rw [pass2Step, hf]
      rw [hstep]
      refine ih _ ?_ (fun x hx => hp x (by simp [hx]))
      exact forall_mem_listModify Q acc i _ (fun x hx => hQ x p hx) ha

theorem pass2_fold_nomerge (dist : ℚ → ℚ → ℚ → ℚ → ℚ) (l : List Place) :
    ∀ acc, List.Pairwise (fun q p => nearPred dist p q = false) (acc ++ l) →
      l.foldl (pass2Step dist) acc = acc ++ l := by
  induction l with
  | nil => intro acc _; simp
  | cons p t ih =>
    intro acc h
    have hnone : findIdxA (fun q => nearPred dist p q) acc 0 = none := by
      rw [findIdxA_none_iff]
      intro q hq
      rcases List.pairwise_append.mp h with ⟨-, -, hcross⟩
      exact hcross q hq p (by simp)
    rw [List.foldl_cons, pass2Step, hnone, ih (acc ++ [p])
      (by rw [List.append_assoc, List.singleton_append]; exact h),
      List.append_assoc, List.singleton_append]

theorem dedup_dedup_eq (dist : ℚ → ℚ → ℚ → ℚ → ℚ) (R : List Place) :
    dedupPlaces dist (dedupPlaces dist R) = (dedupPlaces dist R).map initPlace := by
  have h1 := pass1_fold_props R R (fun p hp => hp) ([], []) rfl (by simp)
    (by simp) (by simp)
  have hpw : List.Pairwise (fun q p => nearPred dist p q = false)
      (dedupPlaces dist R) :=
    pass2_fold_pairwise dist (pass1 R) [] List.Pairwise.nil
  have hkeys : ((dedupPlaces dist R).map keyOf).Nodup := by
    have hsub := pass2_fold_keys dist (pass1 R) []
    rw [List.map_nil, List.nil_append] at hsub
    exact List.Nodup.sublist hsub h1.2.1
  have hval : ∀ r ∈ dedupPlaces dist R, validPlace r = true :=
    pass2_fold_mem dist (fun r => validPlace r = true)
      (fun a p ha => (validPlace_congr (mergeFrame_mergePlace2 a p)).trans ha)
      (pass1 R) [] (by simp) h1.2.2.1
  have hp1 : pass1 (dedupPlaces dist R) = (dedupPlaces dist R).map initPlace := by
    have hfresh := pass1_fold_fresh (dedupPlaces dist R) ([], []) rfl hval
      (by rw [List.nil_append]; exact hkeys)
    rw [pass1, hfresh]
    rfl
  have hpw2 : List.Pairwise (fun q p => nearPred dist p q = false)
      ((dedupPlaces dist R).map initPlace) := by
    refine List.Pairwise.map initPlace ?_ hpw
    intro a b hab
    show nearPred dist (initPlace b) (initPlace a) = false
    rw [nearPred_congr dist (mergeFrame_initPlace b) (mergeFrame_initPlace a)]
    exact hab
  show ((pass1 (dedupPlaces dist R)).foldl (pass2Step dist) []) = _
  rw [hp1, pass2_fold_nomerge dist ((dedupPlaces dist R).map initPlace) []
    (by rw [List.nil_append]; exact hpw2), List.nil_append]

/-- C2 (amended).  A second application of `dedupPlaces` performs no
further merging: it returns the first result with every record's
`sources` reset to `[record.source].filter(Boolean)` (the exact pass
rebuilds each record with `{...p, sources: [p.source].filter(Boolean)}`).
Hence dedup is idempotent exactly on results whose `sources` are already
that singleton — e.g. when no cross-source merge happened — but not in
general. -/
theorem dedup_idempotent_amended (dist : ℚ → ℚ → ℚ → ℚ → ℚ) (R : List Place) :
    dedupPlaces dist (dedupPlaces dist R) = (dedupPlaces dist R).map initPlace
    ∧ ((∀ r ∈ dedupPlaces dist R, r.sources = sourcesInit r.source) →
        dedupPlaces dist (dedupPlaces dist R) = dedupPlaces dist R) := by
  refine ⟨dedup_dedup_eq dist R, fun h => ?_⟩
  rw [dedup_dedup_eq dist R]
  have hid : ∀ r ∈ dedupPlaces dist R, initPlace r = r := by
    intro r hr
    have hs := h r hr
    cases r
    rw [initPlace]
    simp only at hs
    rw [hs]
  calc (dedupPlaces dist R).map initPlace
      = (dedupPlaces dist R).map id := List.map_congr_left hid
    _ = dedupPlaces dist R := List.map_id _

/-- Counterexample to C2 as stated: after merging two sources into one
record, a second `dedupPlaces` run resets `sources` to `["google"]`,
losing `"other"` — dedup is not idempotent. -/
theorem dedup_not_idempotent_cex :
    dedupPlaces (fun _ _ _ _ => 0) (dedupPlaces (fun _ _ _ _ => 0) [cexA, cexB]) ≠
      dedupPlaces (fun _ _ _ _ => 0) [cexA, cexB] := by decide

/-- Concrete instance of the amended idempotence: a single-source result
has canonical `sources`, and dedup is idempotent on it. -/
theorem dedup_idempotent_witness :
    dedupPlaces (fun _ _ _ _ => 0) (dedupPlaces (fun _ _ _ _ => 0) [cexA]) =
      dedupPlaces (fun _ _ _ _ => 0) [cexA] :=
  (dedup_idempotent_amended (fun _ _ _ _ => 0) [cexA]).2 (by decide)

/-- C9.  Both merge operations update only `sources`, `placeIds`,
`website`, `phone` and `rating` (every other field of the canonical
record is returned unchanged), and consequently every record produced by
`dedupPlaces` carries the `name`, `address`, `lat`, `lng`,
`openingHours` and `categories` of one of the input records it
canonicalizes. -/
theorem dedup_updates_only_merge_fields :
    (∀ cur p, mergeFrame (mergePlace1 cur p) = mergeFrame cur)
    ∧ (∀ dup p, mergeFrame (mergePlace2 dup p) = mergeFrame dup)
    ∧ ∀ (dist : ℚ → ℚ → ℚ → ℚ → ℚ) (R : List Place),
        ∀ r ∈ dedupPlaces dist R, ∃ p ∈ R,
          r.name = p.name ∧ r.address = p.address ∧ r.lat = p.lat ∧
          r.lng = p.lng ∧ r.openingHours = p.openingHours ∧
          r.categories = p.categories := by
  refine ⟨fun cur p => rfl, fun dup p => rfl, ?_⟩
  intro dist R r hr
  have h1 := pass1_fold_props R R (fun p hp => hp) ([], []) rfl (by simp)
    (by simp) (by simp)
  have h2 := pass2_fold_mem dist (fun r => ∃ p ∈ R, mergeFrame r = mergeFrame p)
    (fun a p ha => by
      obtain ⟨p0, hp0, hfr⟩ := ha
      exact ⟨p0, hp0, (mergeFrame_mergePlace2 a p).trans hfr⟩)
    (pass1 R) [] (by simp) h1.2.2.2 r hr
  obtain ⟨p, hp, hfr⟩ := h2
  obtain ⟨e1, e2, e3, e4, e5, e6, -⟩ := mergeFrame_fields hfr
  exact ⟨p, hp, e1, e2, e3, e4, e5, e6⟩

/-- Concrete instance of the frame property of dedup. -/
theorem dedup_frame_witness :
    ∃ p ∈ [cexA], (initPlace cexA).name = p.name ∧
      (initPlace cexA).address = p.address ∧ (initPlace cexA).lat = p.lat ∧
      (initPlace cexA).lng = p.lng ∧
      (initPlace cexA).openingHours = p.openingHours ∧
      (initPlace cexA).categories = p.categories :=
  dedup_updates_only_merge_fields.2.2 (fun _ _ _ _ => 0) [cexA]
    (initPlace cexA) (by decide)
